import Mathlib

/-!
Verification of `services/surfaceflinger/Scheduler/SchedulerUtils.h`:
the `ConnectionHandle` value type and the three statistical reducers
`calculate_mean`, `calculate_median`, `calculate_mode`, shallowly embedded
over `List Int`, where each element stands for a C++ `int64_t` sample value.

Machine arithmetic is made explicit: 64-bit two's-complement wraparound of
the `std::accumulate` sum is `wrap64`, and the `static_cast<int>` narrowing
on `calculate_mode`'s return value is `toInt32`.
-/

namespace SchedulerUtils

/-- Sign-extending reduction of an integer into the `int64_t` range
`[-2^63, 2^63)`: models 64-bit two's-complement wraparound of the C++
accumulator in `calculate_mean`. -/
def wrap64 (x : Int) : Int := (x + 2 ^ 63) % 2 ^ 64 - 2 ^ 63

/-- Sign-extending reduction of an integer into the `int32_t` range
`[-2^31, 2^31)`: models `static_cast<int>` applied to an `int64_t` value
(the low 32 bits, sign-extended), as performed on `calculate_mode`'s
return value. -/
def toInt32 (x : Int) : Int := (x + 2 ^ 31) % 2 ^ 32 - 2 ^ 31

/-- `ConnectionHandle`: opaque handle to a scheduler connection. Its `id`
field is a `std::uintptr_t`, a 64-bit unsigned machine word, modelled as a
natural number (the value of the word). -/
structure ConnectionHandle where
  id : Nat
deriving DecidableEq

/-- `ConnectionHandle::INVALID_ID = static_cast<Id>(-1)`: the all-ones
64-bit word. -/
def INVALID_ID : Nat := 2 ^ 64 - 1

/-- `explicit operator bool`: a handle is valid iff its id differs from
`INVALID_ID`. -/
def ConnectionHandle.isValid (h : ConnectionHandle) : Bool :=
  h.id != INVALID_ID

/-- `operator==(ConnectionHandle lhs, ConnectionHandle rhs)`: compares the
`id` fields. -/
def connectionHandleEq (lhs rhs : ConnectionHandle) : Bool :=
  lhs.id == rhs.id

/-- `std::hash<Id>` for the unsigned integral `Id`: both libc++ and
libstdc++ hash an integral no wider than `size_t` to its own value. -/
def stdHashId (x : Nat) : Nat := x

/-- `std::hash<android::scheduler::ConnectionHandle>`: hashes the `id`
field through `std::hash<Id>`. -/
def stdHashConnectionHandle (h : ConnectionHandle) : Nat :=
  stdHashId h.id

/-- `calculate_mean`: `std::accumulate` of the samples starting from
`static_cast<V>(0)`, with 64-bit wraparound at every addition, then C++
truncating division (`Int.tdiv`, rounding toward zero) by
`static_cast<V>(v.size())`. -/
def calculate_mean (v : List Int) : Int :=
  (v.foldl (fun s x => wrap64 (s + x)) 0).tdiv v.length

/-- `calculate_mean` with its single division made explicit as a fallible
step: integer division by zero is undefined in C++, so a zero divisor
yields `none`. The divisor is `v.size()`, so the `none` branch is taken
exactly on the empty sequence (the source has no empty-input guard). -/
def calculate_mean_checked (v : List Int) : Option Int :=
  let sum := v.foldl (fun s x => wrap64 (s + x)) 0
  if v.length = 0 then none else some (sum.tdiv v.length)

/-- Helper for `counts[value]++` when the key is already present: the
matching node keeps its place in the map's iteration order and its count
is incremented. -/
def bumpKey : List (Int × Nat) → Int → List (Int × Nat)
  | [], _ => []
  | (k, c) :: rest, x =>
      if k = x then (k, c + 1) :: rest else (k, c) :: bumpKey rest x

/-- One step of the counting loop `counts[value]++` of `calculate_mode`,
on an association list that models the `std::unordered_map` in iteration
order. An existing key is bumped in place; a new key allocates a node that
libc++ (Android's standard library) and libstdc++ both link at the front
of the container's iteration-order list, so it is prepended. -/
def countsInsert (m : List (Int × Nat)) (x : Int) : List (Int × Nat) :=
  if x ∈ m.map Prod.fst then bumpKey m x else (x, 1) :: m

/-- The counts map built by the `for (int64_t value : v) counts[value]++;`
loop of `calculate_mode`, in iteration order. -/
def buildCounts (v : List Int) : List (Int × Nat) :=
  v.foldl countsInsert []

/-- The `std::max_element` loop of `calculate_mode` with its comparator
`compareCounts = (l.second <= r.second)`: starting from the first entry,
the current best is replaced whenever its count is less than or equal to
the candidate's count, so among entries of equal count the one latest in
iteration order wins. -/
def maxElemLe (best : Int × Nat) : List (Int × Nat) → Int × Nat
  | [] => best
  | c :: rest => maxElemLe (if best.2 ≤ c.2 then c else best) rest

/-- `calculate_mode`: returns `0` (an `int`) on the empty sequence, else
builds the counts map, runs `std::max_element` over it with
`compareCounts`, and returns `static_cast<int>` of the winning key. The
inner `[]` branch is unreachable: the counts map of a non-empty sequence
is non-empty. -/
def calculate_mode (v : List Int) : Int :=
  if v = [] then 0
  else
    match buildCounts v with
    | [] => 0
    | e :: rest => toInt32 (maxElemLe e rest).1

/-- State-passing form of `calculate_mean`: the source takes the sequence
by const reference, so the call returns the result next to the unchanged
sequence. -/
def calculate_mean_run (v : List Int) : Int × List Int :=
  (calculate_mean v, v)

/-- State-passing form of `calculate_mode`: the source takes the sequence
by const reference, so the call returns the result next to the unchanged
sequence. -/
def calculate_mode_run (v : List Int) : Int × List Int :=
  (calculate_mode v, v)

/-- Modelled from the spec: the body of `calculate_median` is not among
the sources (`SchedulerUtils.h` only declares
`int64_t calculate_median(std::vector<int64_t>* v);`). Per the spec:
empty input returns `0`; otherwise the sequence is partially reordered so
that index `n / 2` holds the value that occupies it in a fully sorted
arrangement, and that element is returned. The permitted partial
reordering is modelled as a full sort; the pair returned is
(result, sequence contents after the call). -/
def calculate_median (v : List Int) : Int × List Int :=
  if v = [] then (0, v)
  else
    let s := List.insertionSort (· ≤ ·) v
    (s.getD (v.length / 2) 0, s)

/-- The occurrence count of the most frequent value of `v` (`0` for the
empty sequence): spec-side notion used to state mode's contract. -/
def maxCount (v : List Int) : Nat :=
  (v.map fun x => List.count x v).foldr max 0

/-- Spec-side description of the mode tie-break: the value encountered
first in a single left-to-right traversal of `v` among those whose
occurrence count is maximal (`0` when `v` is empty). -/
def specFirstMax (v : List Int) : Int :=
  (v.find? fun x => List.count x v == maxCount v).getD 0

/-- The keys of the counts map in iteration order after processing `v`: a
repeated key leaves the key list unchanged, a new key is prepended (see
`countsInsert`). -/
def keyFold (v : List Int) : List Int :=
  v.foldl (fun ks x => if x ∈ ks then ks else x :: ks) []

/-- Claim C5: two `ConnectionHandle` values compare equal iff their `id`
fields are equal, and equal handles have equal hashes (the hash depends
on `id` alone). -/
theorem connectionHandle_eq_iff_id_and_hash_agrees (a b : ConnectionHandle) :
    (connectionHandleEq a b = true ↔ a.id = b.id) ∧
    (connectionHandleEq a b = true →
      stdHashConnectionHandle a = stdHashConnectionHandle b) := by
  constructor
  · simp [connectionHandleEq]
  · intro h
    simp only [connectionHandleEq, beq_iff_eq] at h
    simp [stdHashConnectionHandle, stdHashId, h]

/-- Witness for C5 at the concrete handles with id 42. -/
theorem connectionHandle_eq_iff_id_and_hash_agrees_witness :
    stdHashConnectionHandle ⟨42⟩ = stdHashConnectionHandle ⟨42⟩ :=
  (connectionHandle_eq_iff_id_and_hash_agrees ⟨42⟩ ⟨42⟩).2 (by decide)

/-- Claim C6: `calculate_mean` and `calculate_mode` leave the input
sequence unchanged. In the state-passing embedding both calls return the
sequence exactly as given (the source takes it by const reference); only
`calculate_median` returns a reordered sequence. -/
theorem mean_mode_preserve_input (v : List Int) :
    (calculate_mean_run v).2 = v ∧ (calculate_mode_run v).2 = v :=
  ⟨rfl, rfl⟩

/-- Claim C10: the only division in `calculate_mean` divides by the
length of the sequence, so the division-by-zero branch of the checked
embedding is taken exactly on the empty sequence: `none` on `[]` (the
source has no empty-input guard), and on every non-empty sequence the
checked form agrees with `calculate_mean`. -/
theorem mean_division_by_zero_iff_empty :
    calculate_mean_checked ([] : List Int) = none ∧
    ∀ v : List Int, v ≠ [] →
      calculate_mean_checked v = some (calculate_mean v) := by
  constructor
  · rfl
  · intro v hv
    have hlen : v.length ≠ 0 := by simpa [List.length_eq_zero] using hv
    simp [calculate_mean_checked, calculate_mean, hlen]

/-- Witness for C10 at the one-element sequence `[5]`. -/
theorem mean_division_by_zero_iff_empty_witness :
    calculate_mean_checked [(5 : Int)] = some (calculate_mean [(5 : Int)]) :=
  mean_division_by_zero_iff_empty.2 [(5 : Int)] (by decide)

/-- The per-step 64-bit wraparound of the accumulate loop collapses to a
single wraparound of the mathematical sum. -/
theorem foldl_wrap64_eq (v : List Int) :
    ∀ s : Int,
      v.foldl (fun a x => wrap64 (a + x)) (wrap64 s) = wrap64 (s + v.sum) := by
  induction v with
  | nil => intro s; simp
  | cons x xs ih =>
      intro s
      have hstep : wrap64 (wrap64 s + x) = wrap64 (s + x) := by
        have h1 : (s + 2 ^ 63) % 2 ^ 64 - 2 ^ 63 + x + 2 ^ 63 =
            (s + 2 ^ 63) % 2 ^ 64 + x := by ring
        have h2 : s + 2 ^ 63 + x = s + x + 2 ^ 63 := by ring
        rw [wrap64, wrap64, wrap64, h1, Int.emod_add_emod, h2]
      calc (x :: xs).foldl (fun a y => wrap64 (a + y)) (wrap64 s)
          = xs.foldl (fun a y => wrap64 (a + y)) (wrap64 (wrap64 s + x)) := rfl
        _ = xs.foldl (fun a y => wrap64 (a + y)) (wrap64 (s + x)) := by
              rw [hstep]
        _ = wrap64 ((s + x) + xs.sum) := ih (s + x)
        _ = wrap64 (s + (x :: xs).sum) := by
              rw [List.sum_cons]; congr 1; ring

/-- Claim C4: for non-empty input, `calculate_mean` is the C++ truncating
division of the 64-bit wrapped arithmetic sum of the elements by the
count. -/
theorem mean_eq_tdiv_of_wrapped_sum (v : List Int) (_hv : v ≠ []) :
    calculate_mean v = (wrap64 v.sum).tdiv v.length := by
  have h0 : wrap64 0 = 0 := by decide
  have hfold := foldl_wrap64_eq v 0
  rw [h0] at hfold
  rw [calculate_mean, hfold, zero_add]

/-- Witness for C4 at `[10, 20, 30]` (spec scenario: mean is 20). -/
theorem mean_eq_tdiv_of_wrapped_sum_witness :
    calculate_mean [(10 : Int), 20, 30] =
      (wrap64 ([(10 : Int), 20, 30]).sum).tdiv ([(10 : Int), 20, 30]).length :=
  mean_eq_tdiv_of_wrapped_sum [(10 : Int), 20, 30] (by decide)

/-- Claim C3: median of the empty sequence is `(0, [])`; for non-empty
`v` the result is the element at index `n / 2` of any sorted permutation
of `v`, the sequence after the call is a permutation of `v`, and it holds
that value at index `n / 2`. (`calculate_median` is modelled from the
spec: only its declaration is among the sources.) -/
theorem median_empty_and_sorted_middle :
    calculate_median ([] : List Int) = (0, []) ∧
    ∀ v w : List Int, v ≠ [] → w.Perm v → List.Sorted (· ≤ ·) w →
      (calculate_median v).1 = w.getD (v.length / 2) 0 ∧
      (calculate_median v).2.Perm v ∧
      (calculate_median v).2.getD (v.length / 2) 0 = (calculate_median v).1 := by
  constructor
  · rfl
  · intro v w hv hw hs
    have hsort : List.Sorted (· ≤ ·) (List.insertionSort (· ≤ ·) v) :=
      List.sorted_insertionSort _ v
    have hperm : (List.insertionSort (· ≤ ·) v).Perm v :=
      List.perm_insertionSort _ v
    have hweq : w = List.insertionSort (· ≤ ·) v :=
      List.eq_of_perm_of_sorted (hw.trans hperm.symm) hs hsort
    simp only [calculate_median, if_neg hv]
    exact ⟨by rw [hweq], hperm, by trivial⟩

/-- Witness for C3 at `[3, 1, 2]` with sorted arrangement `[1, 2, 3]`
(spec scenario: median is 2, found at index 1 after the call). -/
theorem median_empty_and_sorted_middle_witness :
    (calculate_median [(3 : Int), 1, 2]).1 =
      ([(1 : Int), 2, 3]).getD (([(3 : Int), 1, 2]).length / 2) 0 ∧
    (calculate_median [(3 : Int), 1, 2]).2.Perm [(3 : Int), 1, 2] ∧
    (calculate_median [(3 : Int), 1, 2]).2.getD
        (([(3 : Int), 1, 2]).length / 2) 0 =
      (calculate_median [(3 : Int), 1, 2]).1 :=
  median_empty_and_sorted_middle.2 [(3 : Int), 1, 2] [(1 : Int), 2, 3]
    (by decide) (by decide) (by decide)

/-- `wrap64` is the identity on values already in the `int64_t` range. -/
theorem wrap64_eq_self (x : Int) (hlo : -2 ^ 63 ≤ x) (hhi : x < 2 ^ 63) :
    wrap64 x = x := by
  unfold wrap64
  have hp : (2 : Int) ^ 64 = 2 ^ 63 * 2 := by norm_num
  have h1 : (0 : Int) ≤ x + 2 ^ 63 := by omega
  have h2 : x + 2 ^ 63 < 2 ^ 64 := by omega
  rw [Int.emod_eq_of_lt h1 h2]
  ring

/-- `toInt32` is the identity on values already in the `int32_t` range. -/
theorem toInt32_eq_self (x : Int) (hlo : -2 ^ 31 ≤ x) (hhi : x < 2 ^ 31) :
    toInt32 x = x := by
  unfold toInt32
  have hp : (2 : Int) ^ 32 = 2 ^ 31 * 2 := by norm_num
  have h1 : (0 : Int) ≤ x + 2 ^ 31 := by omega
  have h2 : x + 2 ^ 31 < 2 ^ 32 := by omega
  rw [Int.emod_eq_of_lt h1 h2]
  ring

/-- Accumulating `n` copies of `k` stays exact as long as every partial
sum `s + i * k` lies in the `int64_t` range. -/
theorem foldl_wrap64_replicate (k : Int) :
    ∀ (n : Nat) (s : Int),
      (∀ i : Nat, i ≤ n →
        -2 ^ 63 ≤ s + (i : Int) * k ∧ s + (i : Int) * k < 2 ^ 63) →
      (List.replicate n k).foldl (fun a x => wrap64 (a + x)) s =
        s + (n : Int) * k := by
  intro n
  induction n with
  | zero => intro s _; simp
  | succ m ih =>
      intro s H
      have hs1 : -2 ^ 63 ≤ s + k ∧ s + k < 2 ^ 63 := by
        have h := H 1 (by omega)
        simpa using h
      rw [List.replicate_succ]
      simp only [List.foldl_cons]
      rw [wrap64_eq_self (s + k) hs1.1 hs1.2]
      have H' : ∀ i : Nat, i ≤ m →
          -2 ^ 63 ≤ s + k + (i : Int) * k ∧ s + k + (i : Int) * k < 2 ^ 63 := by
        intro i hi
        have h := H (i + 1) (by omega)
        have hcast : s + ((i + 1 : Nat) : Int) * k = s + k + (i : Int) * k := by
          push_cast; ring
        rw [hcast] at h
        exact h
      rw [ih (s + k) H']
      push_cast
      ring

/-- Counterexample to claim C7 as stated: the constant sequence of four
copies of `2^62` sums with 64-bit wraparound to `0`, so its mean is `0`,
not `2^62`. -/
theorem mean_constant_overflow_counterexample :
    calculate_mean (List.replicate 4 ((2 : Int) ^ 62)) = 0 ∧
    ((2 : Int) ^ 62) ≠ 0 := by
  decide

/-- Claim C7 amended: mean of a non-empty constant sequence
`[k, k, ..., k]` of length `n` equals `k`, provided the accumulated sum
`n * k` does not overflow the `int64_t` range. -/
theorem mean_of_constant_within_range (k : Int) (n : Nat) (hn : 0 < n)
    (hlo : -2 ^ 63 ≤ (n : Int) * k) (hhi : (n : Int) * k < 2 ^ 63) :
    calculate_mean (List.replicate n k) = k := by
  have hrange : ∀ i : Nat, i ≤ n →
      -2 ^ 63 ≤ 0 + (i : Int) * k ∧ 0 + (i : Int) * k < 2 ^ 63 := by
    intro i hi
    have hcast : ((i : Nat) : Int) ≤ ((n : Nat) : Int) := by exact_mod_cast hi
    have hz : (0 : Int) ≤ 2 ^ 63 := by positivity
    rcases le_or_lt 0 k with hk | hk
    · have h1 : (i : Int) * k ≤ (n : Int) * k :=
        mul_le_mul_of_nonneg_right hcast hk
      have h2 : 0 ≤ (i : Int) * k := mul_nonneg (by positivity) hk
      constructor
      · linarith
      · linarith
    · have h1 : (n : Int) * k ≤ (i : Int) * k :=
        mul_le_mul_of_nonpos_right hcast hk.le
      have h2 : (i : Int) * k ≤ 0 :=
        mul_nonpos_of_nonneg_of_nonpos (by positivity) hk.le
      constructor
      · linarith
      · linarith
  have hfold := foldl_wrap64_replicate k n 0 hrange
  have hne : ((n : Nat) : Int) ≠ 0 := by omega
  rw [calculate_mean, hfold, List.length_replicate, zero_add]
  exact Int.mul_tdiv_cancel_left k hne

/-- Witness for amended C7 at `k = 5`, `n = 3`. -/
theorem mean_of_constant_within_range_witness :
    calculate_mean (List.replicate 3 (5 : Int)) = 5 :=
  mean_of_constant_within_range 5 3 (by decide) (by decide) (by decide)

/-- Elements of the processed list (or of the accumulator) are keys of the
folded key list. -/
theorem mem_foldl_keys (v : List Int) :
    ∀ (acc : List Int) (x : Int), x ∈ v ∨ x ∈ acc →
      x ∈ v.foldl (fun ks y => if y ∈ ks then ks else y :: ks) acc := by
  induction v with
  | nil =>
      intro acc x h
      simpa using h.resolve_left (by simp)
  | cons y ys ih =>
      intro acc x h
      simp only [List.foldl_cons]
      apply ih
      by_cases hy : y ∈ acc
      · rw [if_pos hy]
        rcases h with h | h
        · rcases List.mem_cons.mp h with rfl | h'
          · exact Or.inr hy
          · exact Or.inl h'
        · exact Or.inr h
      · rw [if_neg hy]
        rcases h with h | h
        · rcases List.mem_cons.mp h with rfl | h'
          · exact Or.inr (List.mem_cons_self x acc)
          · exact Or.inl h'
        · exact Or.inr (List.mem_cons_of_mem y h)

/-- Keys of the folded key list come from the processed list or the
accumulator. -/
theorem mem_of_mem_foldl_keys (v : List Int) :
    ∀ (acc : List Int) (x : Int),
      x ∈ v.foldl (fun ks y => if y ∈ ks then ks else y :: ks) acc →
      x ∈ v ∨ x ∈ acc := by
  induction v with
  | nil =>
      intro acc x h
      exact Or.inr (by simpa using h)
  | cons y ys ih =>
      intro acc x h
      simp only [List.foldl_cons] at h
      rcases ih _ x h with h' | h'
      · exact Or.inl (List.mem_cons_of_mem y h')
      · by_cases hy : y ∈ acc
        · rw [if_pos hy] at h'
          exact Or.inr h'
        · rw [if_neg hy] at h'
          rcases List.mem_cons.mp h' with rfl | h''
          · exact Or.inl (List.mem_cons_self x ys)
          · exact Or.inr h''

/-- Every element of `v` is a key of `keyFold v`. -/
theorem mem_keyFold_of_mem (v : List Int) (x : Int) (h : x ∈ v) :
    x ∈ keyFold v :=
  mem_foldl_keys v [] x (Or.inl h)

/-- Every key of `keyFold v` is an element of `v`. -/
theorem mem_of_mem_keyFold (v : List Int) (x : Int) (h : x ∈ keyFold v) :
    x ∈ v :=
  (mem_of_mem_foldl_keys v [] x h).resolve_right (by simp)

/-- The folded key list never acquires a duplicate key. -/
theorem nodup_foldl_keys (v : List Int) :
    ∀ acc : List Int, acc.Nodup →
      (v.foldl (fun ks y => if y ∈ ks then ks else y :: ks) acc).Nodup := by
  induction v with
  | nil => intro acc h; simpa using h
  | cons y ys ih =>
      intro acc h
      simp only [List.foldl_cons]
      apply ih
      by_cases hy : y ∈ acc
      · rwa [if_pos hy]
      · rw [if_neg hy]
        exact List.nodup_cons.mpr ⟨hy, h⟩

/-- The key list of the counts map has no duplicate key. -/
theorem keyFold_nodup (v : List Int) : (keyFold v).Nodup :=
  nodup_foldl_keys v [] List.nodup_nil

/-- Processing one more sample appends to the fold. -/
theorem keyFold_append_singleton (v : List Int) (x : Int) :
    keyFold (v ++ [x]) =
      if x ∈ keyFold v then keyFold v else x :: keyFold v := by
  simp [keyFold, List.foldl_append]

/-- Processing one more sample appends to the counts fold. -/
theorem buildCounts_append_singleton (v : List Int) (x : Int) :
    buildCounts (v ++ [x]) = countsInsert (buildCounts v) x := by
  simp [buildCounts, List.foldl_append]

/-- Bumping a present key of a duplicate-free keyed map increments exactly
that key's count, in place. -/
theorem bumpKey_map (x : Int) :
    ∀ (K : List Int) (g : Int → Nat), K.Nodup →
      bumpKey (K.map fun k => (k, g k)) x =
        K.map fun k => (k, if k = x then g k + 1 else g k) := by
  intro K
  induction K with
  | nil => intro g _; rfl
  | cons k K' ih =>
      intro g hnd
      rcases List.nodup_cons.mp hnd with ⟨hk, hnd'⟩
      simp only [List.map_cons, bumpKey]
      by_cases hkx : k = x
      · subst hkx
        simp only [eq_self_iff_true, if_true]
        congr 1
        apply List.map_congr_left
        intro a ha
        have hax : a ≠ k := fun h => hk (h ▸ ha)
        simp [hax]
      · simp only [if_neg hkx]
        congr 1
        exact ih g hnd'

/-- Structure of the counts map: after processing `v` it is exactly the
key list in iteration order, each key paired with its occurrence count in
`v`. -/
theorem buildCounts_eq (v : List Int) :
    buildCounts v = (keyFold v).map fun k => (k, List.count k v) := by
  induction v using List.reverseRecOn with
  | nil => rfl
  | append_singleton v x ih =>
      rw [buildCounts_append_singleton, ih, keyFold_append_singleton]
      have hkeys :
          ((keyFold v).map fun k => (k, List.count k v)).map Prod.fst =
            keyFold v := by
        simp [Function.comp_def]
      by_cases hx : x ∈ keyFold v
      · rw [if_pos hx]
        unfold countsInsert
        rw [hkeys, if_pos hx, bumpKey_map x (keyFold v) _ (keyFold_nodup v)]
        apply List.map_congr_left
        intro a ha
        by_cases hax : a = x
        · subst hax
          simp [List.count_append, List.count_singleton]
        · have hxa : (x == a) = false := beq_eq_false_iff_ne.mpr fun h =>
            hax h.symm
          simp [hax, List.count_append, List.count_singleton, hxa]
      · rw [if_neg hx]
        unfold countsInsert
        rw [hkeys, if_neg hx]
        simp only [List.map_cons]
        have hxv : x ∉ v := fun h => hx (mem_keyFold_of_mem v x h)
        congr 1
        · have hcx : List.count x v = 0 := List.count_eq_zero.mpr hxv
          simp [List.count_append, List.count_singleton, hcx]
        · apply List.map_congr_left
          intro a ha
          have hax : a ≠ x := fun h => hx (h ▸ ha)
          have hxa : (x == a) = false := beq_eq_false_iff_ne.mpr fun h =>
            hax h.symm
          simp [List.count_append, List.count_singleton, hxa]

/-- Behaviour of the `std::max_element` loop with the `<=` comparator:
the scanned range splits around the returned entry, every entry strictly
after it has a strictly smaller count, and every entry before it has a
count at most the returned one. In particular the returned entry is the
last one attaining the maximal count. -/
theorem maxElemLe_split :
    ∀ (rest : List (Int × Nat)) (best : Int × Nat),
      ∃ l₁ l₂ : List (Int × Nat),
        best :: rest = l₁ ++ maxElemLe best rest :: l₂ ∧
        (∀ p ∈ l₂, p.2 < (maxElemLe best rest).2) ∧
        (∀ p ∈ l₁, p.2 ≤ (maxElemLe best rest).2) := by
  intro rest
  induction rest with
  | nil =>
      intro best
      exact ⟨[], [], rfl, by simp, by simp⟩
  | cons c rest' ih =>
      intro best
      by_cases hbc : best.2 ≤ c.2
      · have hred : maxElemLe best (c :: rest') = maxElemLe c rest' := by
          simp [maxElemLe, hbc]
        obtain ⟨l₁, l₂, heq, h2, h1⟩ := ih c
        have hall : ∀ p ∈ c :: rest', p.2 ≤ (maxElemLe c rest').2 := by
          intro p hp
          rw [heq] at hp
          rcases List.mem_append.mp hp with hp' | hp'
          · exact h1 p hp'
          · rcases List.mem_cons.mp hp' with rfl | hp''
            · exact le_refl _
            · exact (h2 p hp'').le
        refine ⟨best :: l₁, l₂, ?_, ?_, ?_⟩
        · rw [hred, List.cons_append, ← heq]
        · intro p hp
          rw [hred]
          exact h2 p hp
        · intro p hp
          rw [hred]
          rcases List.mem_cons.mp hp with rfl | hp'
          · exact le_trans hbc (hall c (List.mem_cons_self c rest'))
          · exact h1 p hp'
      · have hcb : c.2 < best.2 := Nat.lt_of_not_le hbc
        have hred : maxElemLe best (c :: rest') = maxElemLe best rest' := by
          simp [maxElemLe, hbc]
        obtain ⟨l₁, l₂, heq, h2, h1⟩ := ih best
        cases l₁ with
        | nil =>
            simp only [List.nil_append] at heq
            injection heq with hbest hrest
            refine ⟨[], c :: l₂, ?_, ?_, by simp⟩
            · rw [hred, List.nil_append, ← hbest, ← hrest]
            · intro p hp
              rw [hred, ← hbest]
              rcases List.mem_cons.mp hp with rfl | hp'
              · exact hcb
              · rw [hbest]
                exact h2 p hp'
        | cons b l₁' =>
            simp only [List.cons_append] at heq
            injection heq with hb hrest
            refine ⟨best :: c :: l₁', l₂, ?_, ?_, ?_⟩
            · rw [hred]
              simp only [List.cons_append]
              rw [← hrest]
            · intro p hp
              rw [hred]
              exact h2 p hp
            · intro p hp
              rw [hred]
              have hbbound : best.2 ≤ (maxElemLe best rest').2 := by
                have hx := h1 b (List.mem_cons_self b l₁')
                rwa [← hb] at hx
              rcases List.mem_cons.mp hp with rfl | hp'
              · exact hbbound
              · rcases List.mem_cons.mp hp' with rfl | hp''
                · exact le_trans hcb.le hbbound
                · exact h1 p (List.mem_cons_of_mem b hp'')

/-- A split of a mapped duplicate-free key list into prefix, pivot and
suffix lifts to a split of the key list itself. -/
theorem map_split_entries (f : Int → Int × Nat) :
    ∀ (K : List Int) (l₁ l₂ : List (Int × Nat)) (r : Int × Nat),
      K.map f = l₁ ++ r :: l₂ →
      ∃ (K₁ : List Int) (k : Int) (K₂ : List Int),
        K = K₁ ++ k :: K₂ ∧ l₁ = K₁.map f ∧ r = f k ∧ l₂ = K₂.map f := by
  intro K
  induction K with
  | nil =>
      intro l₁ l₂ r h
      exact absurd h (by simp)
  | cons a K' ih =>
      intro l₁ l₂ r h
      rw [List.map_cons] at h
      cases l₁ with
      | nil =>
          simp only [List.nil_append] at h
          injection h with h1 h2
          exact ⟨[], a, K', rfl, rfl, h1.symm, h2.symm⟩
      | cons p l₁' =>
          simp only [List.cons_append] at h
          injection h with h1 h2
          obtain ⟨K₁, k, K₂, hK, hl₁, hr, hl₂⟩ := ih l₁' l₂ r h2
          exact ⟨a :: K₁, k, K₂, by rw [hK, List.cons_append],
            by rw [List.map_cons, hl₁, h1], hr, hl₂⟩

/-- An upper bound of a list of naturals bounds its `foldr max 0`. -/
theorem foldr_max_le (l : List Nat) (c : Nat) (h : ∀ a ∈ l, a ≤ c) :
    l.foldr max 0 ≤ c := by
  induction l with
  | nil => simp
  | cons a l' ih =>
      simp only [List.foldr_cons]
      exact max_le (h a (List.mem_cons_self a l'))
        (ih fun b hb => h b (List.mem_cons_of_mem a hb))

/-- Every member of a list of naturals is at most its `foldr max 0`. -/
theorem le_foldr_max (l : List Nat) (a : Nat) (h : a ∈ l) :
    a ≤ l.foldr max 0 := by
  induction l with
  | nil => cases h
  | cons b l' ih =>
      simp only [List.foldr_cons]
      rcases List.mem_cons.mp h with rfl | h'
      · exact le_max_left a _
      · exact le_trans (ih h') (le_max_right b _)

/-- Iteration order of the counts map is the reverse of first-occurrence
order: whenever `k` sits somewhere in `keyFold v`, the sequence splits at
the first occurrence of `k`, and every sample before that occurrence is a
key strictly after `k` in iteration order. -/
theorem keyFold_split (v : List Int) :
    ∀ (K₁ K₂ : List Int) (k : Int), keyFold v = K₁ ++ k :: K₂ →
      ∃ v₁ v₂ : List Int,
        v = v₁ ++ k :: v₂ ∧ k ∉ v₁ ∧ ∀ x ∈ v₁, x ∈ K₂ := by
  induction v using List.reverseRecOn with
  | nil =>
      intro K₁ K₂ k h
      exact absurd h (by simp [keyFold])
  | append_singleton v x ih =>
      intro K₁ K₂ k h
      rw [keyFold_append_singleton] at h
      by_cases hx : x ∈ keyFold v
      · rw [if_pos hx] at h
        obtain ⟨v₁, v₂, hsp, hnm, hsub⟩ := ih K₁ K₂ k h
        exact ⟨v₁, v₂ ++ [x], by rw [hsp]; simp, hnm, hsub⟩
      · rw [if_neg hx] at h
        cases K₁ with
        | nil =>
            simp only [List.nil_append] at h
            injection h with hk hK₂
            refine ⟨v, [], by rw [← hk], ?_, ?_⟩
            · rw [← hk]
              exact fun hmem => hx (mem_keyFold_of_mem v x hmem)
            · intro y hy
              rw [← hK₂]
              exact mem_keyFold_of_mem v y hy
        | cons b K₁' =>
            simp only [List.cons_append] at h
            injection h with hb hrest
            obtain ⟨v₁, v₂, hsp, hnm, hsub⟩ := ih K₁' K₂ k hrest
            exact ⟨v₁, v₂ ++ [x], by rw [hsp]; simp, hnm, hsub⟩

/-- Master characterization of `calculate_mode` on a non-empty sequence:
the winning key is a value of maximal occurrence count, namely the one
encountered first among maximal-count values (`specFirstMax`), and the
function returns its sign-extended low 32 bits. -/
theorem mode_spec (v : List Int) (hv : v ≠ []) :
    ∃ k : Int, k ∈ v ∧ List.count k v = maxCount v ∧
      specFirstMax v = k ∧ calculate_mode v = toInt32 k := by
  obtain ⟨y, hy⟩ := List.exists_mem_of_ne_nil v hv
  have hKne : keyFold v ≠ [] := by
    intro h
    have hmem := mem_keyFold_of_mem v y hy
    rw [h] at hmem
    cases hmem
  obtain ⟨k₀, K', hKcons⟩ := List.exists_cons_of_ne_nil hKne
  obtain ⟨l₁, l₂, heq, h2, h1⟩ :=
    maxElemLe_split (K'.map fun k => (k, List.count k v))
      (k₀, List.count k₀ v)
  have hKmap : (keyFold v).map (fun k => (k, List.count k v)) =
      l₁ ++ maxElemLe (k₀, List.count k₀ v)
        (K'.map fun k => (k, List.count k v)) :: l₂ := by
    rw [hKcons, List.map_cons]
    exact heq
  obtain ⟨K₁, k, K₂, hKsplit, hl₁, hrf, hl₂⟩ :=
    map_split_entries (fun k => (k, List.count k v)) (keyFold v) l₁ l₂ _
      hKmap
  have hkK : k ∈ keyFold v := by
    rw [hKsplit]
    exact List.mem_append.mpr (Or.inr (List.mem_cons_self k K₂))
  have hkv : k ∈ v := mem_of_mem_keyFold v k hkK
  have hallle : ∀ x ∈ v, List.count x v ≤ List.count k v := by
    intro x hx
    have hxK : x ∈ keyFold v := mem_keyFold_of_mem v x hx
    rw [hKsplit] at hxK
    rcases List.mem_append.mp hxK with hx1 | hx2
    · have hfx : (x, List.count x v) ∈ l₁ := by
        rw [hl₁]
        exact List.mem_map_of_mem _ hx1
      have hle := h1 _ hfx
      rw [hrf] at hle
      exact hle
    · rcases List.mem_cons.mp hx2 with rfl | hx3
      · exact le_refl _
      · have hfx : (x, List.count x v) ∈ l₂ := by
          rw [hl₂]
          exact List.mem_map_of_mem _ hx3
        have hlt := h2 _ hfx
        rw [hrf] at hlt
        exact hlt.le
  have hcnt : List.count k v = maxCount v := by
    unfold maxCount
    apply le_antisymm
    · exact le_foldr_max _ _ (List.mem_map_of_mem _ hkv)
    · apply foldr_max_le
      intro a ha
      obtain ⟨x, hxv, rfl⟩ := List.mem_map.mp ha
      exact hallle x hxv
  obtain ⟨v₁, v₂, hvsplit, hknv₁, hv₁K₂⟩ := keyFold_split v K₁ K₂ k hKsplit
  have hltv₁ : ∀ x ∈ v₁, List.count x v < List.count k v := by
    intro x hx
    have hfx : (x, List.count x v) ∈ l₂ := by
      rw [hl₂]
      exact List.mem_map_of_mem _ (hv₁K₂ x hx)
    have hlt := h2 _ hfx
    rw [hrf] at hlt
    exact hlt
  have hfind : (v.find? fun x => List.count x v == maxCount v) = some k := by
    have hstep : (List.find? (fun x => List.count x v == maxCount v) v) =
        List.find? (fun x => List.count x v == maxCount v) (v₁ ++ k :: v₂) :=
      congrArg _ hvsplit
    rw [hstep, List.find?_append]
    have hnone :
        List.find? (fun x => List.count x v == maxCount v) v₁ = none := by
      apply List.find?_eq_none.mpr
      intro x hx
      simp only [beq_iff_eq]
      have hlt := hltv₁ x hx
      omega
    rw [hnone, Option.none_or]
    apply List.find?_cons_of_pos
    simp only [beq_iff_eq]
    exact hcnt
  have hsf : specFirstMax v = k := by
    rw [specFirstMax, hfind]
    rfl
  have hmode : calculate_mode v = toInt32 k := by
    rw [calculate_mode, if_neg hv, buildCounts_eq, hKcons, List.map_cons]
    show toInt32 (maxElemLe (k₀, List.count k₀ v)
        (K'.map fun k => (k, List.count k v))).1 = toInt32 k
    rw [hrf]
  exact ⟨k, hkv, hcnt, hsf, hmode⟩

/-- Occurrence counts double under self-concatenation. -/
theorem count_append_self (x : Int) (v : List Int) :
    List.count x (v ++ v) = 2 * List.count x v := by
  rw [List.count_append]
  omega

/-- `foldr max 0` commutes with doubling every element. -/
theorem foldr_max_double (l : List Nat) :
    (l.map fun a => 2 * a).foldr max 0 = 2 * l.foldr max 0 := by
  induction l with
  | nil => rfl
  | cons a l' ih =>
      simp only [List.map_cons, List.foldr_cons, ih]
      omega

/-- `foldr max 0` over an append is the max of the two folds. -/
theorem foldr_max_append (A B : List Nat) :
    (A ++ B).foldr max 0 = max (A.foldr max 0) (B.foldr max 0) := by
  induction A with
  | nil => simp
  | cons a A' ih =>
      simp only [List.cons_append, List.foldr_cons, ih]
      omega

/-- The maximal occurrence count doubles under self-concatenation. -/
theorem maxCount_append_self (v : List Int) :
    maxCount (v ++ v) = 2 * maxCount v := by
  unfold maxCount
  have hmap : (v ++ v).map (fun x => List.count x (v ++ v)) =
      ((v.map fun x => List.count x v).map fun a => 2 * a) ++
        ((v.map fun x => List.count x v).map fun a => 2 * a) := by
    rw [List.map_append]
    have hone : v.map (fun x => List.count x (v ++ v)) =
        (v.map fun x => List.count x v).map fun a => 2 * a := by
      rw [List.map_map]
      apply List.map_congr_left
      intro x _
      simp only [Function.comp_def, List.count_append]
      omega
    rw [hone]
  rw [hmap, foldr_max_append, foldr_max_double]
  omega

/-- The first-encountered maximal-count value is unchanged by
concatenating the sequence with itself. -/
theorem specFirstMax_append_self (v : List Int) :
    specFirstMax (v ++ v) = specFirstMax v := by
  unfold specFirstMax
  have hpred : (fun x => List.count x (v ++ v) == maxCount (v ++ v)) =
      fun x => List.count x v == maxCount v := by
    funext x
    rw [count_append_self, maxCount_append_self]
    by_cases h : List.count x v = maxCount v
    · simp [h]
    · have h2 : 2 * List.count x v ≠ 2 * maxCount v := by omega
      simp [h, h2]
  rw [hpred, List.find?_append, Option.or_self]

/-- Counterexample to claim C1 as stated: for the distinct values
`a = 2^32` and `b = 1`, each occurring once, the mode of `[a, b]` is `0`
(the sign-extended low 32 bits of the first-encountered value `2^32`),
not `a`. -/
theorem mode_tiebreak_counterexample :
    calculate_mode [(4294967296 : Int), 1] = 0 ∧
    (0 : Int) ≠ 4294967296 ∧ (4294967296 : Int) ≠ 1 := by
  decide

/-- Claim C1 amended: among the values tied for the maximum occurrence
count, `calculate_mode` returns the sign-extended low 32 bits of the one
encountered first during a single left-to-right traversal; in
particular, for any two distinct values `a` and `b` each occurring once,
with `a` representable in 32 bits, `calculate_mode [a, b] = a`. -/
theorem mode_tiebreak_first_seen :
    (∀ v : List Int, v ≠ [] →
      calculate_mode v = toInt32 (specFirstMax v)) ∧
    ∀ a b : Int, a ≠ b → -2 ^ 31 ≤ a → a < 2 ^ 31 →
      calculate_mode [a, b] = a := by
  constructor
  · intro v hv
    obtain ⟨k, _, _, hsf, hmode⟩ := mode_spec v hv
    rw [hmode, hsf]
  · intro a b hab hlo hhi
    have hba : (b == a) = false := beq_eq_false_iff_ne.mpr (Ne.symm hab)
    have hab' : (a == b) = false := beq_eq_false_iff_ne.mpr hab
    have hca : List.count a [a, b] = 1 := by
      simp [List.count_cons, hba]
    have hcb : List.count b [a, b] = 1 := by
      simp [List.count_cons, hab']
    have hmax : maxCount [a, b] = 1 := by
      simp [maxCount, hca, hcb]
    have hsf : specFirstMax [a, b] = a := by
      simp [specFirstMax, List.find?, hca, hmax]
    obtain ⟨k, _, _, hsfx, hmode⟩ := mode_spec [a, b] (by simp)
    have hk : k = a := by rw [← hsfx, hsf]
    rw [hmode, hk]
    exact toInt32_eq_self a hlo hhi

/-- Witness for amended C1 at the tied pair `[3, 5]`. -/
theorem mode_tiebreak_first_seen_witness :
    calculate_mode [(3 : Int), 5] = 3 :=
  mode_tiebreak_first_seen.2 3 5 (by decide) (by decide) (by decide)

/-- Counterexample to claim C2 as stated: the singleton sequence holding
`2^32` has mode `0` (the sign-extended low 32 bits of `2^32`), and `0`
does not occur in the sequence. -/
theorem mode_value_in_sequence_counterexample :
    calculate_mode [(4294967296 : Int)] = 0 ∧
    ¬ (0 : Int) ∈ [(4294967296 : Int)] := by
  decide

/-- Claim C2 amended: for non-empty input, `calculate_mode` returns the
sign-extended low 32 bits of a value occurring in the sequence whose
occurrence count is maximal (so whenever that value fits in 32 bits the
result is the value itself); for the empty sequence it returns `0`. -/
theorem mode_truncated_max_count_value :
    calculate_mode ([] : List Int) = 0 ∧
    ∀ v : List Int, v ≠ [] →
      ∃ x : Int, x ∈ v ∧
        (∀ y ∈ v, List.count y v ≤ List.count x v) ∧
        calculate_mode v = toInt32 x := by
  constructor
  · rfl
  · intro v hv
    obtain ⟨k, hkmem, hkcnt, _, hmode⟩ := mode_spec v hv
    refine ⟨k, hkmem, ?_, hmode⟩
    intro y hy
    rw [hkcnt, maxCount]
    exact le_foldr_max _ _ (List.mem_map_of_mem _ hy)

/-- Witness for amended C2 at `[5, 5, 7]`. -/
theorem mode_truncated_max_count_value_witness :
    ∃ x : Int, x ∈ [(5 : Int), 5, 7] ∧
      (∀ y ∈ [(5 : Int), 5, 7],
        List.count y [(5 : Int), 5, 7] ≤ List.count x [(5 : Int), 5, 7]) ∧
      calculate_mode [(5 : Int), 5, 7] = toInt32 x :=
  mode_truncated_max_count_value.2 [(5 : Int), 5, 7] (by decide)

/-- Claim C8: mode of the concatenation of `v` with itself equals mode of
`v`, for every sequence `v`. -/
theorem mode_idempotent_self_append (v : List Int) :
    calculate_mode (v ++ v) = calculate_mode v := by
  rcases eq_or_ne v [] with rfl | hv
  · rfl
  · have hvv : v ++ v ≠ [] := by
      intro h
      exact hv (List.append_eq_nil.mp h).1
    obtain ⟨k₁, _, _, hsf₁, hmode₁⟩ := mode_spec (v ++ v) hvv
    obtain ⟨k₂, _, _, hsf₂, hmode₂⟩ := mode_spec v hv
    rw [hmode₁, hmode₂]
    congr 1
    rw [← hsf₁, ← hsf₂]
    exact specFirstMax_append_self v

/-- Claim C9: `calculate_mode` narrows its result to a 32-bit `int`: the
empty case returns `0`, every non-empty result is the sign-extended low
32 bits of the winning key, and on the concrete sequence `[2^32 + 7]`,
whose only (hence maximal-count) value does not fit in 32 bits, the
result is `7`, which is not an element of the sequence. -/
theorem mode_returns_narrowed_int :
    calculate_mode ([] : List Int) = 0 ∧
    (∀ v : List Int, v ≠ [] →
      calculate_mode v = toInt32 (specFirstMax v)) ∧
    calculate_mode [(4294967303 : Int)] = 7 ∧
    ¬ (7 : Int) ∈ [(4294967303 : Int)] := by
  refine ⟨rfl, ?_, by decide, by decide⟩
  intro v hv
  obtain ⟨k, _, _, hsf, hmode⟩ := mode_spec v hv
  rw [hmode, hsf]

/-- Witness for C9 at the singleton `[9]`. -/
theorem mode_returns_narrowed_int_witness :
    calculate_mode [(9 : Int)] = toInt32 (specFirstMax [(9 : Int)]) :=
  mode_returns_narrowed_int.2.1 [(9 : Int)] (by decide)

end SchedulerUtils
